import Mathlib

/-
Verification of the kafka-postgres-transform data plane against its
specification.  The definitions below are shallow embeddings of the Rust
source:
  * adaptive_batch        from src/aimd_stream.rs
  * read_messages         from src/file.rs (frame reader)
  * the partitioner loop  from src/file.rs (process_file, lines 46-53)
  * decode_dynamic_message's prefix stripping from src/protobuf.rs
  * insert_data           from src/postgres.rs
Byte streams are `List Nat` (each entry one byte), machine integers are
Nat/Int with explicit wrapping, durations are Nat (nanoseconds), and the
nondeterministic wall clock of the batcher is an oracle `elapsed : Nat → Nat`
giving the collection time of each round.
-/

/- ---------------------------------------------------------------------
   AIMD batcher (src/aimd_stream.rs, adaptive_batch)

   The Rust loop collects up to `batch_size` items, terminates when a
   round collects nothing, otherwise updates the size by AIMD
   (increase when the measured time is within target, halve otherwise)
   and yields the batch.  Each yielded entry below is
   (batch_size at the start of the round, collected batch); the source
   yields only the batch, the size is ghost state recording the loop
   variable for the statements.  `fuel` bounds the recursion; every
   yielding round consumes at least one upstream item, so
   `fuel = upstream.length` is enough (proved by `adaptiveBatchGo_fuel`).
   --------------------------------------------------------------------- -/

def adaptiveBatchGo {α : Type} (elapsed : Nat → Nat)
    (target min_batch_size max_batch_size : Nat) :
    Nat → Nat → Nat → List α → List (Nat × List α)
  | 0, _, _, _ => []
  | fuel + 1, round, batch_size, upstream =>
    let batch := upstream.take batch_size
    if batch.isEmpty then []
    else
      let next :=
        if elapsed round ≤ target then min (batch_size + 1) max_batch_size
        else max (batch_size / 2) min_batch_size
      (batch_size, batch) ::
        adaptiveBatchGo elapsed target min_batch_size max_batch_size
          fuel (round + 1) next (upstream.drop batch_size)

/-- Embedding of `adaptive_batch(stream, initial_batch_size, min_batch_size,
max_batch_size, target_processing_time)`; `elapsed r` is the wall-clock
duration measured for round `r`. -/
def adaptive_batch {α : Type} (elapsed : Nat → Nat) (stream : List α)
    (initial_batch_size min_batch_size max_batch_size target_processing_time : Nat) :
    List (Nat × List α) :=
  adaptiveBatchGo elapsed target_processing_time min_batch_size max_batch_size
    stream.length 0 initial_batch_size stream

/- ---------------------------------------------------------------------
   Frame reader (src/file.rs, read_messages)

   The decompressed stream after the descriptor set is
   repeat { u32le key_len; key bytes; u32le msg_len; msg bytes }.
   EOF (also a partial read) while reading either length field breaks the
   loop cleanly; a short read of the key bytes or of the message bytes is
   an error, as are invalid UTF-8 key bytes and a failing message decode.
   Message decoding is abstracted by `dec : List Nat → Option M`.
   --------------------------------------------------------------------- -/

inductive ReadErr where
  /-- io error with context "Couldn't read message key bytes" -/
  | malformedKey
  /-- the `String::from_utf8` error propagated by `?` -/
  | badUtf8Key
  /-- io error with context "Couldn't read message bytes" -/
  | malformedMsg
  /-- error with context "Failed to decode message" -/
  | decodeFailed
deriving DecidableEq, Repr

/-- Continuation byte 0x80..=0xBF. -/
def utf8Cont (b : Nat) : Bool := 0x80 ≤ b && b ≤ 0xBF

/-- Standard UTF-8 validity (what `String::from_utf8` checks), with fuel for
structural recursion; `fuel = length` suffices. -/
def utf8ValidGo : Nat → List Nat → Bool
  | _, [] => true
  | 0, _ :: _ => false
  | fuel + 1, b :: l =>
    if b ≤ 0x7F then utf8ValidGo fuel l
    else if 0xC2 ≤ b && b ≤ 0xDF then
      match l with
      | c :: l2 => utf8Cont c && utf8ValidGo fuel l2
      | [] => false
    else if b = 0xE0 then
      match l with
      | c :: d :: l2 => (0xA0 ≤ c && c ≤ 0xBF) && utf8Cont d && utf8ValidGo fuel l2
      | _ => false
    else if (0xE1 ≤ b && b ≤ 0xEC) || b = 0xEE || b = 0xEF then
      match l with
      | c :: d :: l2 => utf8Cont c && utf8Cont d && utf8ValidGo fuel l2
      | _ => false
    else if b = 0xED then
      match l with
      | c :: d :: l2 => (0x80 ≤ c && c ≤ 0x9F) && utf8Cont d && utf8ValidGo fuel l2
      | _ => false
    else if b = 0xF0 then
      match l with
      | c :: d :: e :: l2 =>
          (0x90 ≤ c && c ≤ 0xBF) && utf8Cont d && utf8Cont e && utf8ValidGo fuel l2
      | _ => false
    else if 0xF1 ≤ b && b ≤ 0xF3 then
      match l with
      | c :: d :: e :: l2 =>
          utf8Cont c && utf8Cont d && utf8Cont e && utf8ValidGo fuel l2
      | _ => false
    else if b = 0xF4 then
      match l with
      | c :: d :: e :: l2 =>
          (0x80 ≤ c && c ≤ 0x8F) && utf8Cont d && utf8Cont e && utf8ValidGo fuel l2
      | _ => false
    else false

def utf8Valid (l : List Nat) : Bool := utf8ValidGo l.length l

/-- Value of a little-endian u32 from four bytes. -/
def leU32 (b0 b1 b2 b3 : Nat) : Nat :=
  b0 + 2 ^ 8 * b1 + 2 ^ 16 * b2 + 2 ^ 24 * b3

/-- The four little-endian bytes of `n < 2^32` (`u32::to_le_bytes`). -/
def leBytes4 (n : Nat) : List Nat :=
  [n % 256, n / 2 ^ 8 % 256, n / 2 ^ 16 % 256, n / 2 ^ 24 % 256]

/-- One record of the on-disk frame: key length, key bytes, payload length,
payload bytes. -/
def encodeRecord (key msg : List Nat) : List Nat :=
  leBytes4 key.length ++ key ++ leBytes4 msg.length ++ msg

/-- Frame body for a list of (key bytes, payload bytes, decoded message)
triples; the third component is ghost data naming the decode result. -/
def encodeRecords {M : Type} : List (List Nat × List Nat × M) → List Nat
  | [] => []
  | r :: rs => encodeRecord r.1 r.2.1 ++ encodeRecords rs

/-- The record loop of `read_messages`, over an explicit byte stream.  Each
successful iteration consumes at least 8 bytes, so `fuel = length` suffices
(`read_messagesGo_fuel`).  Keys are kept as their byte lists. -/
def read_messagesGo {M : Type} (dec : List Nat → Option M) :
    Nat → List Nat → List (List Nat × M) × Option ReadErr
  | 0, _ => ([], none)
  | fuel + 1, s =>
    match s with
    | b0 :: b1 :: b2 :: b3 :: rest =>
      let key_len := leU32 b0 b1 b2 b3
      if rest.length < key_len then ([], some .malformedKey)
      else
        let key := rest.take key_len
        let rest1 := rest.drop key_len
        if utf8Valid key = false then ([], some .badUtf8Key)
        else
          match rest1 with
          | c0 :: c1 :: c2 :: c3 :: rest2 =>
            let msg_len := leU32 c0 c1 c2 c3
            if rest2.length < msg_len then ([], some .malformedMsg)
            else
              match dec (rest2.take msg_len) with
              | none => ([], some .decodeFailed)
              | some m =>
                let r := read_messagesGo dec fuel (rest2.drop msg_len)
                ((key, m) :: r.1, r.2)
          | _ => ([], none)
    | _ => ([], none)

/-- Embedding of `read_messages`: the list of decoded (key, message) pairs
followed by the terminal outcome (`none` = clean end of stream). -/
def read_messages {M : Type} (dec : List Nat → Option M) (s : List Nat) :
    List (List Nat × M) × Option ReadErr :=
  read_messagesGo dec s.length s

/- ---------------------------------------------------------------------
   Partitioner (src/file.rs, process_file lines 46-53)

   The loop creates ONE `FxHasher::default()` before iterating and calls
   `key.hash(&mut hasher); hasher.finish() % num_partitions` for every
   record, so the hasher state carries over from record to record.
   The hash itself is modelled from the dependency rustc-hash (FxHasher,
   the rotate-xor-multiply algorithm) on a 64-bit little-endian platform;
   `String`'s `Hash` impl writes the UTF-8 bytes then the byte 0xff.
   --------------------------------------------------------------------- -/

def fxSeed : Nat := 0x517cc1b727220a95

/-- `usize::rotate_left(5)` on 64 bits. -/
def rotl5 (h : Nat) : Nat := h * 2 ^ 5 % 2 ^ 64 ||| h / 2 ^ 59

/-- `FxHasher::add_to_hash`: rotate, xor, wrapping multiply by the seed. -/
def add_to_hash (h i : Nat) : Nat := (rotl5 h ^^^ i) * fxSeed % 2 ^ 64

/-- Trailing 0 or 1 byte of `Hasher::write`. -/
def fxWrite1 : List Nat → Nat → Nat
  | b0 :: _, h => add_to_hash h b0
  | [], h => h

/-- Trailing at-most-3 bytes: one u16 chunk then the u8 step. -/
def fxWrite2 : List Nat → Nat → Nat
  | b0 :: b1 :: rest, h => fxWrite1 rest (add_to_hash h (b0 + 2 ^ 8 * b1))
  | rest, h => fxWrite1 rest h

/-- `Hasher::write`: u64 chunks while at least 8 bytes remain, then one
optional u32 chunk, one optional u16 chunk, one optional u8. -/
def fxWrite : List Nat → Nat → Nat
  | b0 :: b1 :: b2 :: b3 :: b4 :: b5 :: b6 :: b7 :: rest, h =>
    fxWrite rest
      (add_to_hash h
        (b0 + 2 ^ 8 * b1 + 2 ^ 16 * b2 + 2 ^ 24 * b3 + 2 ^ 32 * b4 +
          2 ^ 40 * b5 + 2 ^ 48 * b6 + 2 ^ 56 * b7))
  | b0 :: b1 :: b2 :: b3 :: rest, h =>
    fxWrite2 rest (add_to_hash h (b0 + 2 ^ 8 * b1 + 2 ^ 16 * b2 + 2 ^ 24 * b3))
  | rest, h => fxWrite2 rest h

/-- `key.hash(&mut hasher)` for a `String` key given as UTF-8 bytes:
write the bytes, then `write_u8(0xff)`. -/
def hashStringInto (h : Nat) (key : List Nat) : Nat :=
  add_to_hash (fxWrite key h) 0xff

/-- The partition assignment loop of `process_file`: one hasher threaded
through all records; `finish` is the identity on the 64-bit state. -/
def partitionsGo (num_partitions : Nat) : Nat → List (List Nat) → List Nat
  | _, [] => []
  | h, key :: keys =>
    let h2 := hashStringInto h key
    h2 % num_partitions :: partitionsGo num_partitions h2 keys

/-- Partition index assigned to each record of the stream, in order. -/
def partitions (num_partitions : Nat) (keys : List (List Nat)) : List Nat :=
  partitionsGo num_partitions 0 keys

/-- Indices of the records delivered to channel `p`, in send order. -/
def channelOf (num_partitions : Nat) (keys : List (List Nat)) (p : Nat) :
    List Nat :=
  ((partitions num_partitions keys).enum.filter fun x => x.2 = p).map fun x => x.1

/- ---------------------------------------------------------------------
   Broker payload prefix stripping
   (src/protobuf.rs, decode_dynamic_message lines 147-161)
   --------------------------------------------------------------------- -/

/-- Bytes handed to the protobuf decoder: the Confluent 5-byte prefix is
skipped only when the payload is longer than 5 bytes and byte 0 is zero. -/
def message_bytes (payload : List Nat) : List Nat :=
  if 5 < payload.length ∧ payload.headD 1 = 0 then payload.drop 5 else payload

/- ---------------------------------------------------------------------
   Database writer (src/postgres.rs, insert_data)

   JSON numbers follow serde_json: a non-negative integer is a u64, a
   negative integer an i64, and a float is kept abstract (only its Display
   rendering, used by the text coercion, is carried).
   --------------------------------------------------------------------- -/

inductive JNum where
  | posInt (n : Nat)
  | negInt (n : Int)
  | float (repr : String)
deriving DecidableEq, Repr

def JNum.is_i64 : JNum → Bool
  | .posInt n => n ≤ 2 ^ 63 - 1
  | .negInt _ => true
  | .float _ => false

def JNum.is_f64 : JNum → Bool
  | .float _ => true
  | _ => false

/-- `as_i64().unwrap()`, meaningful when `is_i64`. -/
def JNum.as_i64 : JNum → Int
  | .posInt n => n
  | .negInt n => n
  | .float _ => 0

/-- `Number`'s `Display`/`to_string()`. -/
def JNum.toStr : JNum → String
  | .posInt n => toString n
  | .negInt n => toString n
  | .float r => r

/-- The serde_json number of an i64 value. -/
def jnumOfInt (n : Int) : JNum :=
  if 0 ≤ n then .posInt n.toNat else .negInt n

inductive JValue where
  | null
  | bool (b : Bool)
  | num (n : JNum)
  | str (s : String)
  | arr (elems : List JValue)
  | obj (fields : List (String × JValue))

structure ColumnSpec where
  name : String
  type : String
deriving DecidableEq, Repr

structure TableInfo where
  schema : String
  name : String
  columns : List ColumnSpec
deriving DecidableEq, Repr

/-- The `TransformResult` consumed by `insert_data`; the struct itself is
declared outside src/ and is reconstructed from its uses in
src/postgres.rs and the spec's data model (rows are JSON objects keyed by
column name). -/
structure TransformResult where
  success : Bool
  table_info : Option TableInfo
  data : Option (List (List (String × JValue)))
  error : Option String

/-- `row.get(&col.name)` on a JSON object. -/
def rowGet (row : List (String × JValue)) (name : String) : Option JValue :=
  (row.find? fun p => p.1 = name).map fun p => p.2

inductive ColumnData where
  | int (v : List Int)
  | text (v : List String)
  | bool (v : List Bool)
  /-- `ColumnData::Float(Vec<f64>)`; the f64 is kept as its source number. -/
  | float (v : List JNum)
deriving DecidableEq, Repr

def ColumnData.pg_type : ColumnData → String
  | .int _ => "int"
  | .text _ => "text"
  | .bool _ => "bool"
  | .float _ => "float8"

/-- `i64 as i32`: two's-complement truncation to 32 bits. -/
def asI32 (n : Int) : Int := (n + 2 ^ 31) % 2 ^ 32 - 2 ^ 31

/-- The per-cell `match (col.r#type.as_str(), value)` of `insert_data`:
`none` is the `bail!` type-mismatch arm. -/
def coerceCell (ty : String) (v : JValue) : Option ColumnData :=
  match v with
  | .num n =>
    if (ty = "int" ∨ ty = "integer") ∧ n.is_i64 then
      some (.int [asI32 n.as_i64])
    else if ty = "string" ∨ ty = "text" ∨ ty = "varchar" then
      some (.text [n.toStr])
    else if (ty = "float" ∨ ty = "float8" ∨ ty = "double") ∧ (n.is_f64 || n.is_i64) then
      some (.float [n])
    else none
  | .str s =>
    if ty = "string" ∨ ty = "text" ∨ ty = "varchar" then some (.text [s]) else none
  | .bool b => if ty = "bool" then some (.bool [b]) else none
  | _ => none

inductive InsertErr where
  /-- "TransformResult indicates failure" -/
  | upstreamFailure (e : Option String)
  /-- "Missing table_info" -/
  | missingTableInfo
  /-- "Missing data" -/
  | missingData
  /-- "Missing column … in row …" -/
  | missingColumn (col : String)
  /-- "Type mismatch or unsupported …" -/
  | typeMismatch (col : String)
  /-- "Unsupported type merge" -/
  | unsupportedMerge (ty : String)
deriving DecidableEq, Repr

/-- The inner row loop for one column. -/
def collectColumn (col : ColumnSpec) :
    List (List (String × JValue)) → Except InsertErr (List ColumnData)
  | [] => .ok []
  | row :: rest =>
    match rowGet row col.name with
    | none => .error (.missingColumn col.name)
    | some v =>
      match coerceCell col.type v with
      | none => .error (.typeMismatch col.name)
      | some c => (collectColumn col rest).map fun l => c :: l

/-- The flattening `match col.r#type.as_str()` after the row loop; the
`unreachable!()` arms contribute nothing. -/
def mergeColumn (ty : String) (cells : List ColumnData) : Except InsertErr ColumnData :=
  if ty = "int" ∨ ty = "integer" then
    .ok (.int ((cells.map fun c => match c with | .int v => v | _ => []).flatten))
  else if ty = "text" ∨ ty = "varchar" ∨ ty = "string" then
    .ok (.text ((cells.map fun c => match c with | .text v => v | _ => []).flatten))
  else if ty = "bool" then
    .ok (.bool ((cells.map fun c => match c with | .bool v => v | _ => []).flatten))
  else if ty = "float" ∨ ty = "float8" ∨ ty = "double" then
    .ok (.float ((cells.map fun c => match c with | .float v => v | _ => []).flatten))
  else .error (.unsupportedMerge ty)

/-- The outer `for col in columns` loop building `column_data`. -/
def collectColumns (rows : List (List (String × JValue))) :
    List ColumnSpec → Except InsertErr (List ColumnData)
  | [] => .ok []
  | col :: rest =>
    match collectColumn col rows with
    | .error e => .error e
    | .ok cells =>
      match mergeColumn col.type cells with
      | .error e => .error e
      | .ok merged =>
        match collectColumns rows rest with
        | .error e => .error e
        | .ok others => .ok (merged :: others)

/-- Comma-joined column names. -/
def columnNames (cols : List ColumnSpec) : String :=
  String.intercalate ", " (cols.map fun c => c.name)

/-- The joined `$i::type[]` signature; it depends only on the buffers'
pg types. -/
def unnestArgsOf (tys : List String) : String :=
  String.intercalate ", "
    (tys.enum.map fun p => "$" ++ toString (p.1 + 1) ++ "::" ++ p.2 ++ "[]")

def unnestArgs (column_data : List ColumnData) : String :=
  unnestArgsOf (column_data.map ColumnData.pg_type)

/-- The statement-cache key of `Pool.query_cache`. -/
abbrev CacheKey := String × String × String × String

inductive DbEffect where
  | connect
  | prepare (key : CacheKey)
  | execute
deriving DecidableEq, Repr

inductive InsertOutcome where
  | ok (rows : Nat)
  | err (e : InsertErr)
deriving DecidableEq, Repr

structure InsertResult where
  outcome : InsertOutcome
  cache : List CacheKey
  effects : List DbEffect
deriving DecidableEq, Repr

/-- Embedding of `insert_data`: the statement cache is a list of keys, and
database interaction is recorded as an effect trace (connection acquire,
statement prepare, execute).  Prepare and execute are assumed to succeed;
the driver row count of the unnest insert is the number of rows. -/
def insert_data (cache : List CacheKey) (data : TransformResult) : InsertResult :=
  if data.success = false then ⟨.err (.upstreamFailure data.error), cache, []⟩
  else
    match data.table_info with
    | none => ⟨.err .missingTableInfo, cache, []⟩
    | some table_info =>
      match data.data with
      | none => ⟨.err .missingData, cache, []⟩
      | some rows =>
        if rows.isEmpty then ⟨.ok 0, cache, []⟩
        else if table_info.columns.isEmpty then ⟨.ok 0, cache, []⟩
        else
          match collectColumns rows table_info.columns with
          | .error e => ⟨.err e, cache, []⟩
          | .ok column_data =>
            let key : CacheKey :=
              (table_info.schema, table_info.name,
                columnNames table_info.columns, unnestArgs column_data)
            if key ∈ cache then
              ⟨.ok rows.length, cache, [.connect, .execute]⟩
            else
              ⟨.ok rows.length, cache ++ [key], [.connect, .prepare key, .execute]⟩

/-- A sequence of `insert_data` calls in one process, threading the cache
and concatenating the effect traces. -/
def insertSeq (cache : List CacheKey) :
    List TransformResult → List CacheKey × List DbEffect
  | [] => (cache, [])
  | r :: rest =>
    let res := insert_data cache r
    let tail := insertSeq res.cache rest
    (tail.1, res.effects ++ tail.2)

/-- Number of `prepare k` effects in a trace. -/
def prepCount (effs : List DbEffect) (k : CacheKey) : Nat :=
  (effs.filter fun e => e = DbEffect.prepare k).length

/-- The database type a declared column type merges to
(`ColumnData::pg_type` after `mergeColumn`). -/
def pgOf (ty : String) : String :=
  if ty = "int" ∨ ty = "integer" then "int"
  else if ty = "text" ∨ ty = "varchar" ∨ ty = "string" then "text"
  else if ty = "bool" then "bool"
  else "float8"

/- ---------------------------------------------------------------------
   Helper lemmas: AIMD batcher
   --------------------------------------------------------------------- -/

theorem adaptiveBatchGo_fuel {α : Type} (elapsed : Nat → Nat)
    (target minB maxB : Nat) :
    ∀ f1 f2 r bs (l : List α), l.length ≤ f1 → l.length ≤ f2 →
      adaptiveBatchGo elapsed target minB maxB f1 r bs l =
        adaptiveBatchGo elapsed target minB maxB f2 r bs l := by
  intro f1
  induction f1 with
  | zero =>
    intro f2 r bs l h1 _
    have hl : l = [] := List.length_eq_zero.mp (Nat.le_zero.mp h1)
    subst hl
    cases f2 <;> simp [adaptiveBatchGo]
  | succ f ih =>
    intro f2 r bs l h1 h2
    cases f2 with
    | zero =>
      have hl : l = [] := List.length_eq_zero.mp (Nat.le_zero.mp h2)
      subst hl
      simp [adaptiveBatchGo]
    | succ g =>
      simp only [adaptiveBatchGo]
      by_cases hb : (l.take bs).isEmpty = true
      · simp only [if_pos hb]
      · simp only [if_neg hb]
        have hne : l.take bs ≠ [] := by
          intro h
          simp [h] at hb
        have hbs : bs ≠ 0 ∧ l ≠ [] := by
          constructor
          · intro h; simp [h] at hne
          · intro h; simp [h] at hne
        have hlen : 1 ≤ l.length := by
          cases l with
          | nil => exact absurd rfl hbs.2
          | cons a t => simp
        have hd := List.length_drop bs l
        rw [ih g (r + 1) _ (l.drop bs) (by omega) (by omega)]

theorem adaptiveBatchGo_nil {α : Type} (elapsed : Nat → Nat)
    (target minB maxB : Nat) (fuel r bs : Nat) :
    adaptiveBatchGo (α := α) elapsed target minB maxB fuel r bs [] = [] := by
  cases fuel <;> simp [adaptiveBatchGo]

theorem adaptiveBatchGo_head {α : Type} (elapsed : Nat → Nat)
    (target minB maxB fuel r bs : Nat) (l : List α) (p : Nat × List α)
    (h : (adaptiveBatchGo elapsed target minB maxB fuel r bs l)[0]? = some p) :
    p.1 = bs ∧ p.2 = l.take bs := by
  cases fuel with
  | zero => simp [adaptiveBatchGo] at h
  | succ f =>
    simp only [adaptiveBatchGo] at h
    by_cases hb : (l.take bs).isEmpty = true
    · rw [if_pos hb] at h
      simp at h
    · rw [if_neg hb] at h
      simp only [List.getElem?_cons_zero, Option.some.injEq] at h
      subst h
      exact ⟨rfl, rfl⟩

theorem adaptiveBatchGo_mem_ne_nil {α : Type} (elapsed : Nat → Nat)
    (target minB maxB : Nat) :
    ∀ (fuel r bs : Nat) (l : List α) (p : Nat × List α),
      p ∈ adaptiveBatchGo elapsed target minB maxB fuel r bs l →
      p.2 ≠ [] ∧ p.2.length ≤ p.1 := by
  intro fuel
  induction fuel with
  | zero => intro r bs l p hp; simp [adaptiveBatchGo] at hp
  | succ f ih =>
    intro r bs l p hp
    simp only [adaptiveBatchGo] at hp
    by_cases hb : (l.take bs).isEmpty = true
    · rw [if_pos hb] at hp
      simp at hp
    · rw [if_neg hb] at hp
      rcases List.mem_cons.mp hp with hp | hp
      · subst hp
        refine ⟨?_, ?_⟩
        · intro h
          have h2 : l.take bs = [] := h
          rw [h2] at hb
          simp at hb
        · simp [List.length_take]
      · exact ih _ _ _ _ hp

theorem adaptiveBatchGo_size_range {α : Type} (elapsed : Nat → Nat)
    (target minB maxB : Nat) (hmm : minB ≤ maxB) :
    ∀ (fuel r bs : Nat) (l : List α), minB ≤ bs → bs ≤ maxB →
      ∀ p ∈ adaptiveBatchGo elapsed target minB maxB fuel r bs l,
        minB ≤ p.1 ∧ p.1 ≤ maxB := by
  intro fuel
  induction fuel with
  | zero => intro r bs l _ _ p hp; simp [adaptiveBatchGo] at hp
  | succ f ih =>
    intro r bs l h1 h2 p hp
    simp only [adaptiveBatchGo] at hp
    by_cases hb : (l.take bs).isEmpty = true
    · rw [if_pos hb] at hp
      simp at hp
    · rw [if_neg hb] at hp
      rcases List.mem_cons.mp hp with hp | hp
      · subst hp; exact ⟨h1, h2⟩
      · refine ih _ _ _ ?_ ?_ p hp
        · by_cases ht : elapsed r ≤ target
          · rw [if_pos ht]; exact le_min (by omega) hmm
          · rw [if_neg ht]; exact le_max_right _ _
        · by_cases ht : elapsed r ≤ target
          · rw [if_pos ht]; exact min_le_right _ _
          · rw [if_neg ht]; exact max_le (by omega) hmm

theorem adaptiveBatchGo_flatten {α : Type} (elapsed : Nat → Nat)
    (target minB maxB : Nat) (hmin : 1 ≤ minB) (hmax : 1 ≤ maxB) :
    ∀ (fuel r bs : Nat) (l : List α), l.length ≤ fuel → 1 ≤ bs →
      ((adaptiveBatchGo elapsed target minB maxB fuel r bs l).map Prod.snd).flatten
        = l := by
  intro fuel
  induction fuel with
  | zero =>
    intro r bs l h1 _
    have hl : l = [] := List.length_eq_zero.mp (Nat.le_zero.mp h1)
    subst hl
    simp [adaptiveBatchGo]
  | succ f ih =>
    intro r bs l h1 hbs
    simp only [adaptiveBatchGo]
    by_cases hb : (l.take bs).isEmpty = true
    · rw [if_pos hb]
      cases l with
      | nil => simp
      | cons a t =>
        exfalso
        cases bs with
        | zero => omega
        | succ b => simp [List.take_succ_cons] at hb
    · rw [if_neg hb]
      simp only [List.map_cons, List.flatten_cons]
      have hlne : l ≠ [] := by
        intro h
        simp [h] at hb
      have hlen : 1 ≤ l.length := by
        cases l with
        | nil => exact absurd rfl hlne
        | cons a t => simp
      have hd := List.length_drop bs l
      rw [ih (r + 1) _ (l.drop bs) (by omega) ?_]
      · exact List.take_append_drop bs l
      · by_cases ht : elapsed r ≤ target
        · rw [if_pos ht]; exact le_min (by omega) hmax
        · rw [if_neg ht]; exact le_trans hmin (le_max_right _ _)

theorem adaptiveBatchGo_succ_fst {α : Type} (elapsed : Nat → Nat)
    (target minB maxB : Nat) :
    ∀ (fuel r bs : Nat) (l : List α) (i : Nat) (p q : Nat × List α),
      (adaptiveBatchGo elapsed target minB maxB fuel r bs l)[i]? = some p →
      (adaptiveBatchGo elapsed target minB maxB fuel r bs l)[i + 1]? = some q →
      q.1 = if elapsed (r + i) ≤ target then min (p.1 + 1) maxB
            else max (p.1 / 2) minB := by
  intro fuel
  induction fuel with
  | zero => intro r bs l i p q hp _; simp [adaptiveBatchGo] at hp
  | succ f ih =>
    intro r bs l i p q hp hq
    simp only [adaptiveBatchGo] at hp hq
    by_cases hb : (l.take bs).isEmpty = true
    · rw [if_pos hb] at hp
      simp at hp
    · rw [if_neg hb] at hp
      rw [if_neg hb] at hq
      cases i with
      | zero =>
        simp only [List.getElem?_cons_zero, Option.some.injEq] at hp
        simp only [List.getElem?_cons_succ] at hq
        have hh := adaptiveBatchGo_head elapsed target minB maxB f (r + 1) _ _ q hq
        subst hp
        simpa using hh.1
      | succ j =>
        simp only [List.getElem?_cons_succ] at hp hq
        have hres := ih (r + 1) _ _ j p q hp hq
        have harith : r + 1 + j = r + (j + 1) := by omega
        rw [harith] at hres
        exact hres

theorem adaptiveBatchGo_nonfinal_len {α : Type} (elapsed : Nat → Nat)
    (target minB maxB : Nat) :
    ∀ (fuel r bs : Nat) (l : List α) (i : Nat) (p q : Nat × List α),
      (adaptiveBatchGo elapsed target minB maxB fuel r bs l)[i]? = some p →
      (adaptiveBatchGo elapsed target minB maxB fuel r bs l)[i + 1]? = some q →
      p.2.length = p.1 := by
  intro fuel
  induction fuel with
  | zero => intro r bs l i p q hp _; simp [adaptiveBatchGo] at hp
  | succ f ih =>
    intro r bs l i p q hp hq
    simp only [adaptiveBatchGo] at hp hq
    by_cases hb : (l.take bs).isEmpty = true
    · rw [if_pos hb] at hp
      simp at hp
    · rw [if_neg hb] at hp
      rw [if_neg hb] at hq
      cases i with
      | zero =>
        simp only [List.getElem?_cons_zero, Option.some.injEq] at hp
        simp only [List.getElem?_cons_succ] at hq
        have hne : adaptiveBatchGo elapsed target minB maxB f (r + 1)
            (if elapsed r ≤ target then min (bs + 1) maxB else max (bs / 2) minB)
            (l.drop bs) ≠ [] := by
          intro h
          rw [h] at hq
          simp at hq
        have hdrop : l.drop bs ≠ [] := by
          intro h
          rw [h] at hne
          exact hne (adaptiveBatchGo_nil _ _ _ _ _ _ _)
        have hlt : bs < l.length := by
          by_contra hcon
          push_neg at hcon
          exact hdrop (List.drop_eq_nil_of_le hcon)
        subst hp
        simp [List.length_take]
        omega
      | succ j =>
        simp only [List.getElem?_cons_succ] at hp hq
        exact ih (r + 1) _ _ j p q hp hq

/- ---------------------------------------------------------------------
   Claims C4, C5, C6
   --------------------------------------------------------------------- -/

/-- C4 counterexample: the initial batch size is NOT clamped into
`[min_batch_size, max_batch_size]`.  With `initial_batch_size = 3`,
`min = 1`, `max = 2`, the first round runs with size 3 and yields a batch
of 3 items, exceeding `max_batch_size`. -/
theorem adaptive_batch_initial_not_clamped :
    adaptive_batch (fun _ => 0) [0, 1, 2] 3 1 2 0 = [(3, [0, 1, 2])] ∧
      ¬((3 : Nat) ≤ 2) := by
  constructor
  · rfl
  · decide

/-- C4 (amended): when the initial batch size already lies in
`[min_batch_size, max_batch_size]`, the current size is in range at the
start of every collection round, every yielded batch has at most
`max_batch_size` items, and every non-final batch has at least
`min_batch_size` items. -/
theorem adaptive_batch_size_bounds {α : Type} (elapsed : Nat → Nat)
    (stream : List α) (init minB maxB target : Nat)
    (h1 : minB ≤ init) (h2 : init ≤ maxB) :
    (∀ p ∈ adaptive_batch elapsed stream init minB maxB target,
        minB ≤ p.1 ∧ p.1 ≤ maxB) ∧
    (∀ p ∈ adaptive_batch elapsed stream init minB maxB target,
        p.2.length ≤ maxB) ∧
    (∀ (i : Nat) (p q : Nat × List α),
        (adaptive_batch elapsed stream init minB maxB target)[i]? = some p →
        (adaptive_batch elapsed stream init minB maxB target)[i + 1]? = some q →
        minB ≤ p.2.length) := by
  have hmm : minB ≤ maxB := le_trans h1 h2
  refine ⟨?_, ?_, ?_⟩
  · intro p hp
    exact adaptiveBatchGo_size_range elapsed target minB maxB hmm _ _ _ _ h1 h2 p hp
  · intro p hp
    have hr := adaptiveBatchGo_size_range elapsed target minB maxB hmm _ _ _ _ h1 h2 p hp
    have hl := adaptiveBatchGo_mem_ne_nil elapsed target minB maxB _ _ _ _ p hp
    omega
  · intro i p q hp hq
    have hlen := adaptiveBatchGo_nonfinal_len elapsed target minB maxB _ _ _ _ i p q hp hq
    have hmem : p ∈ adaptive_batch elapsed stream init minB maxB target :=
      List.getElem?_mem hp
    have hr := adaptiveBatchGo_size_range elapsed target minB maxB hmm _ _ _ _ h1 h2 p hmem
    omega

/-- Witness for `adaptive_batch_size_bounds` at a concrete run. -/
theorem adaptive_batch_size_bounds_witness :
    ((1 : Nat) ≤ 2 ∧ (2 : Nat) ≤ 10) ∧
      (∀ p ∈ adaptive_batch (fun _ => 0) [0, 1, 2, 3, 4] 2 1 10 5,
          1 ≤ p.1 ∧ p.1 ≤ 10) :=
  ⟨⟨by decide, by decide⟩,
    (adaptive_batch_size_bounds (fun _ => 0) [0, 1, 2, 3, 4] 2 1 10 5
      (by decide) (by decide)).1⟩

/-- C5: between any two consecutive collection rounds the batch size is
updated by exactly the AIMD rule: if the measured collection time of round
`i` is at most the target (equality counts as acceptable), the next round's
size is `min(size + 1, max_batch_size)`; otherwise it is
`max(size / 2, min_batch_size)` with integer division.  The timer is
per-round (`elapsed i` is measured afresh for round `i`). -/
theorem adaptive_batch_aimd_update {α : Type} (elapsed : Nat → Nat)
    (stream : List α) (init minB maxB target : Nat) (i : Nat)
    (p q : Nat × List α)
    (hp : (adaptive_batch elapsed stream init minB maxB target)[i]? = some p)
    (hq : (adaptive_batch elapsed stream init minB maxB target)[i + 1]? = some q) :
    q.1 = if elapsed i ≤ target then min (p.1 + 1) maxB
          else max (p.1 / 2) minB := by
  have hres := adaptiveBatchGo_succ_fst elapsed target minB maxB _ 0 init stream i p q hp hq
  simpa using hres

/-- Witness for `adaptive_batch_aimd_update`: the first round takes exactly
the target time (the tie counts as an increase). -/
theorem adaptive_batch_aimd_update_witness :
    (adaptive_batch (fun r => if r = 0 then 5 else 7) [0, 1, 2, 3, 4, 5, 6]
        2 1 10 5)[0]? = some (2, [0, 1]) ∧
    (adaptive_batch (fun r => if r = 0 then 5 else 7) [0, 1, 2, 3, 4, 5, 6]
        2 1 10 5)[1]? = some (3, [2, 3, 4]) ∧
    (3 : Nat) = if (5 : Nat) ≤ 5 then min (2 + 1) 10 else max (2 / 2) 1 := by
  refine ⟨by rfl, by rfl, ?_⟩
  have hres := adaptive_batch_aimd_update (fun r => if r = 0 then 5 else 7)
    [0, 1, 2, 3, 4, 5, 6] 2 1 10 5 0 (2, [0, 1]) (3, [2, 3, 4]) (by rfl) (by rfl)
  exact hres

/-- C6: for any finite upstream, concatenating the yielded batches in order
gives back the upstream; every yielded batch is non-empty; every non-final
batch has exactly the batch size in effect when its round started; and an
empty upstream yields no batch.  (The size parameters are assumed positive,
as at the single call site `adaptive_batch(s, 100, 1, 1000, …)`.) -/
theorem adaptive_batch_conservation {α : Type} (elapsed : Nat → Nat)
    (stream : List α) (init minB maxB target : Nat)
    (h1 : 1 ≤ init) (h2 : 1 ≤ minB) (h3 : 1 ≤ maxB) :
    (((adaptive_batch elapsed stream init minB maxB target).map Prod.snd).flatten
        = stream) ∧
    (∀ p ∈ adaptive_batch elapsed stream init minB maxB target, p.2 ≠ []) ∧
    (∀ (i : Nat) (p q : Nat × List α),
        (adaptive_batch elapsed stream init minB maxB target)[i]? = some p →
        (adaptive_batch elapsed stream init minB maxB target)[i + 1]? = some q →
        p.2.length = p.1) ∧
    (stream = [] → adaptive_batch elapsed stream init minB maxB target = []) := by
  refine ⟨?_, ?_, ?_, ?_⟩
  · exact adaptiveBatchGo_flatten elapsed target minB maxB h2 h3 _ 0 init stream
      (le_refl _) h1
  · intro p hp
    exact (adaptiveBatchGo_mem_ne_nil elapsed target minB maxB _ _ _ _ p hp).1
  · intro i p q hp hq
    exact adaptiveBatchGo_nonfinal_len elapsed target minB maxB _ _ _ _ i p q hp hq
  · intro h
    subst h
    exact adaptiveBatchGo_nil _ _ _ _ _ _ _

/-- Witness for `adaptive_batch_conservation` at a concrete run. -/
theorem adaptive_batch_conservation_witness :
    ((1 : Nat) ≤ 2 ∧ (1 : Nat) ≤ 1 ∧ (1 : Nat) ≤ 10) ∧
      ((adaptive_batch (fun _ => 0) [7, 8, 9] 2 1 10 5).map Prod.snd).flatten
        = [7, 8, 9] :=
  ⟨⟨by decide, by decide, by decide⟩,
    (adaptive_batch_conservation (fun _ => 0) [7, 8, 9] 2 1 10 5
      (by decide) (by decide) (by decide)).1⟩

/- ---------------------------------------------------------------------
   Helper lemmas: frame reader
   --------------------------------------------------------------------- -/

theorem leU32_leBytes4 (n : Nat) (h : n < 2 ^ 32) :
    leU32 (n % 256) (n / 2 ^ 8 % 256) (n / 2 ^ 16 % 256) (n / 2 ^ 24 % 256) = n := by
  simp only [leU32]
  omega

theorem read_messagesGo_fuel {M : Type} (dec : List Nat → Option M) :
    ∀ f1 f2 (s : List Nat), s.length ≤ f1 → s.length ≤ f2 →
      read_messagesGo dec f1 s = read_messagesGo dec f2 s := by
  intro f1
  induction f1 with
  | zero =>
    intro f2 s h1 _
    have hs : s = [] := List.length_eq_zero.mp (Nat.le_zero.mp h1)
    subst hs
    cases f2 <;> simp [read_messagesGo]
  | succ f ih =>
    intro f2 s h1 h2
    cases f2 with
    | zero =>
      have hs : s = [] := List.length_eq_zero.mp (Nat.le_zero.mp h2)
      subst hs
      simp [read_messagesGo]
    | succ g =>
      rcases s with _ | ⟨b0, s⟩
      · simp [read_messagesGo]
      rcases s with _ | ⟨b1, s⟩
      · simp [read_messagesGo]
      rcases s with _ | ⟨b2, s⟩
      · simp [read_messagesGo]
      rcases s with _ | ⟨b3, rest⟩
      · simp [read_messagesGo]
      simp only [read_messagesGo]
      by_cases hkl : rest.length < leU32 b0 b1 b2 b3
      · simp only [if_pos hkl]
      simp only [if_neg hkl]
      by_cases hu : utf8Valid (rest.take (leU32 b0 b1 b2 b3)) = false
      · simp only [if_pos hu]
      simp only [if_neg hu]
      have hr1len : (rest.drop (leU32 b0 b1 b2 b3)).length
          = rest.length - leU32 b0 b1 b2 b3 := List.length_drop _ _
      generalize hgen : rest.drop (leU32 b0 b1 b2 b3) = r1 at hr1len
      rcases r1 with _ | ⟨c0, r1⟩
      · rfl
      rcases r1 with _ | ⟨c1, r1⟩
      · rfl
      rcases r1 with _ | ⟨c2, r1⟩
      · rfl
      rcases r1 with _ | ⟨c3, rest2⟩
      · rfl
      simp only []
      by_cases hml : rest2.length < leU32 c0 c1 c2 c3
      · simp only [if_pos hml]
      simp only [if_neg hml]
      cases hdec : dec (rest2.take (leU32 c0 c1 c2 c3)) with
      | none => rfl
      | some m =>
        have hd2 : (rest2.drop (leU32 c0 c1 c2 c3)).length
            = rest2.length - leU32 c0 c1 c2 c3 := List.length_drop _ _
        rw [ih g (rest2.drop (leU32 c0 c1 c2 c3)) ?_ ?_]
        · simp only [List.length_cons] at h1 h2 hr1len
          omega
        · simp only [List.length_cons] at h1 h2 hr1len
          omega

theorem read_messagesGo_short {M : Type} (dec : List Nat → Option M)
    (fuel : Nat) (s : List Nat) (h : s.length < 4) :
    read_messagesGo dec fuel s = ([], none) := by
  cases fuel with
  | zero => simp [read_messagesGo]
  | succ f =>
    rcases s with _ | ⟨b0, s⟩
    · simp [read_messagesGo]
    rcases s with _ | ⟨b1, s⟩
    · simp [read_messagesGo]
    rcases s with _ | ⟨b2, s⟩
    · simp [read_messagesGo]
    rcases s with _ | ⟨b3, s⟩
    · simp [read_messagesGo]
    · simp only [List.length_cons] at h
      omega

theorem read_messages_short {M : Type} (dec : List Nat → Option M)
    (s : List Nat) (h : s.length < 4) :
    read_messages dec s = ([], none) :=
  read_messagesGo_short dec s.length s h

theorem read_messages_keyTrunc {M : Type} (dec : List Nat → Option M)
    (n : Nat) (t : List Nat) (hn : n < 2 ^ 32) (ht : t.length < n) :
    read_messages dec (leBytes4 n ++ t) = ([], some ReadErr.malformedKey) := by
  simp only [read_messages, leBytes4, List.cons_append, List.nil_append,
    List.length_cons]
  simp only [read_messagesGo]
  rw [leU32_leBytes4 n hn]
  rw [if_pos ht]

theorem read_messages_badKey {M : Type} (dec : List Nat → Option M)
    (k t : List Nat) (hk : k.length < 2 ^ 32) (hu : utf8Valid k = false) :
    read_messages dec (leBytes4 k.length ++ (k ++ t))
      = ([], some ReadErr.badUtf8Key) := by
  simp only [read_messages, leBytes4, List.cons_append, List.nil_append,
    List.length_cons]
  simp only [read_messagesGo]
  rw [leU32_leBytes4 k.length hk]
  rw [if_neg (by simp only [List.length_append]; omega)]
  rw [List.take_left]
  rw [if_pos hu]

theorem read_messages_lenTrunc {M : Type} (dec : List Nat → Option M)
    (k t : List Nat) (hk : k.length < 2 ^ 32) (hu : utf8Valid k = true)
    (ht : t.length < 4) :
    read_messages dec (leBytes4 k.length ++ (k ++ t)) = ([], none) := by
  simp only [read_messages, leBytes4, List.cons_append, List.nil_append,
    List.length_cons]
  simp only [read_messagesGo]
  rw [leU32_leBytes4 k.length hk]
  rw [if_neg (by simp only [List.length_append]; omega)]
  rw [List.take_left, List.drop_left]
  rw [if_neg (by simp [hu])]
  rcases t with _ | ⟨c0, t⟩
  · rfl
  rcases t with _ | ⟨c1, t⟩
  · rfl
  rcases t with _ | ⟨c2, t⟩
  · rfl
  rcases t with _ | ⟨c3, t⟩
  · rfl
  · simp only [List.length_cons] at ht
    omega

theorem read_messages_msgTrunc {M : Type} (dec : List Nat → Option M)
    (k : List Nat) (n : Nat) (t : List Nat) (hk : k.length < 2 ^ 32)
    (hu : utf8Valid k = true) (hn : n < 2 ^ 32) (ht : t.length < n) :
    read_messages dec (leBytes4 k.length ++ (k ++ (leBytes4 n ++ t)))
      = ([], some ReadErr.malformedMsg) := by
  simp only [read_messages, leBytes4, List.cons_append, List.nil_append,
    List.length_cons]
  simp only [read_messagesGo]
  rw [leU32_leBytes4 k.length hk]
  rw [if_neg (by simp only [List.length_append, List.length_cons]; omega)]
  rw [List.take_left, List.drop_left]
  rw [if_neg (by simp [hu])]
  simp only []
  rw [leU32_leBytes4 n hn]
  rw [if_pos ht]

/-- One-step unfolding of the record loop on a stream with at least the
four key-length bytes. -/
theorem read_messagesGo_cons {M : Type} (dec : List Nat → Option M)
    (fuel b0 b1 b2 b3 : Nat) (rest : List Nat) :
    read_messagesGo dec (fuel + 1) (b0 :: b1 :: b2 :: b3 :: rest) =
      (if rest.length < leU32 b0 b1 b2 b3 then ([], some ReadErr.malformedKey)
       else if utf8Valid (rest.take (leU32 b0 b1 b2 b3)) = false then
         ([], some ReadErr.badUtf8Key)
       else
         match rest.drop (leU32 b0 b1 b2 b3) with
         | c0 :: c1 :: c2 :: c3 :: rest2 =>
           if rest2.length < leU32 c0 c1 c2 c3 then ([], some ReadErr.malformedMsg)
           else
             match dec (rest2.take (leU32 c0 c1 c2 c3)) with
             | none => ([], some ReadErr.decodeFailed)
             | some m =>
               ((rest.take (leU32 b0 b1 b2 b3), m) ::
                   (read_messagesGo dec fuel (rest2.drop (leU32 c0 c1 c2 c3))).1,
                 (read_messagesGo dec fuel (rest2.drop (leU32 c0 c1 c2 c3))).2)
         | _ => ([], none)) := rfl

theorem read_messages_record {M : Type} (dec : List Nat → Option M)
    (key msg : List Nat) (m : M) (t : List Nat)
    (hk : key.length < 2 ^ 32) (hu : utf8Valid key = true)
    (hm : msg.length < 2 ^ 32) (hd : dec msg = some m) :
    read_messages dec (encodeRecord key msg ++ t)
      = ((key, m) :: (read_messages dec t).1, (read_messages dec t).2) := by
  simp only [read_messages, encodeRecord, leBytes4, List.append_assoc,
    List.cons_append, List.nil_append, List.length_cons]
  rw [read_messagesGo_cons]
  rw [leU32_leBytes4 key.length hk]
  rw [if_neg (by simp only [List.length_append, List.length_cons]; omega)]
  rw [List.take_left, List.drop_left]
  rw [if_neg (by simp [hu])]
  simp only []
  rw [leU32_leBytes4 msg.length hm]
  rw [if_neg (by simp only [List.length_append]; omega)]
  rw [List.take_left, List.drop_left]
  rw [hd]
  simp only []
  rw [read_messagesGo_fuel dec _ t.length t ?_ ?_]
  · simp only [List.length_append, List.length_cons]
    omega
  · omega

theorem read_messages_encodeRecords {M : Type} (dec : List Nat → Option M) :
    ∀ (rs : List (List Nat × List Nat × M)),
      (∀ r ∈ rs, r.1.length < 2 ^ 32 ∧ r.2.1.length < 2 ^ 32 ∧
          utf8Valid r.1 = true ∧ dec r.2.1 = some r.2.2) →
      ∀ t : List Nat,
        read_messages dec (encodeRecords rs ++ t)
          = ((rs.map fun r => (r.1, r.2.2)) ++ (read_messages dec t).1,
              (read_messages dec t).2) := by
  intro rs
  induction rs with
  | nil =>
    intro _ t
    simp [encodeRecords]
  | cons r rs ih =>
    intro hwf t
    have hr := hwf r (List.mem_cons_self r rs)
    have hrest : ∀ x ∈ rs, x.1.length < 2 ^ 32 ∧ x.2.1.length < 2 ^ 32 ∧
        utf8Valid x.1 = true ∧ dec x.2.1 = some x.2.2 :=
      fun x hx => hwf x (List.mem_cons_of_mem r hx)
    simp only [encodeRecords, List.append_assoc]
    rw [read_messages_record dec r.1 r.2.1 r.2.2 _ hr.1 hr.2.2.1 hr.2.1 hr.2.2.2]
    rw [ih hrest t]
    simp

/- ---------------------------------------------------------------------
   Claim C3 (corrected): frame reader truncation behaviour
   --------------------------------------------------------------------- -/

/-- C3 counterexample: the stream `[0,0,0,0]` (key length 0, empty key,
then end of stream exactly at the payload-length field) is truncated
mid-record, yet the record loop terminates CLEANLY with no error, where
the claim demands MalformedFrame. -/
theorem read_messages_len_eof_clean :
    read_messages (fun _ => some ()) [0, 0, 0, 0] = ([], none) ∧
      (none : Option ReadErr) ≠ some ReadErr.malformedKey ∧
      (none : Option ReadErr) ≠ some ReadErr.malformedMsg := by
  refine ⟨by rfl, by decide, by decide⟩

/-- C3 (amended): after any prefix of well-formed records, the record loop
terminates cleanly when the decompressed stream ends at a record boundary,
inside the key-length field, or — after a complete valid key — at or
inside the payload-length field; it yields the malformed-frame read error
when the stream ends inside the key bytes or inside the payload bytes, and
the bad-UTF-8 error when the key bytes are not valid UTF-8. -/
theorem read_messages_truncation_behavior {M : Type}
    (dec : List Nat → Option M) (rs : List (List Nat × List Nat × M))
    (hwf : ∀ r ∈ rs, r.1.length < 2 ^ 32 ∧ r.2.1.length < 2 ^ 32 ∧
        utf8Valid r.1 = true ∧ dec r.2.1 = some r.2.2) :
    (read_messages dec (encodeRecords rs)
        = (rs.map fun r => (r.1, r.2.2), none)) ∧
    (∀ t : List Nat, t.length < 4 →
        read_messages dec (encodeRecords rs ++ t)
          = (rs.map fun r => (r.1, r.2.2), none)) ∧
    (∀ (n : Nat) (t : List Nat), n < 2 ^ 32 → t.length < n →
        read_messages dec (encodeRecords rs ++ leBytes4 n ++ t)
          = (rs.map fun r => (r.1, r.2.2), some ReadErr.malformedKey)) ∧
    (∀ k t : List Nat, k.length < 2 ^ 32 → utf8Valid k = false →
        read_messages dec (encodeRecords rs ++ leBytes4 k.length ++ k ++ t)
          = (rs.map fun r => (r.1, r.2.2), some ReadErr.badUtf8Key)) ∧
    (∀ k t : List Nat, k.length < 2 ^ 32 → utf8Valid k = true → t.length < 4 →
        read_messages dec (encodeRecords rs ++ leBytes4 k.length ++ k ++ t)
          = (rs.map fun r => (r.1, r.2.2), none)) ∧
    (∀ (k : List Nat) (n : Nat) (t : List Nat), k.length < 2 ^ 32 →
        utf8Valid k = true → n < 2 ^ 32 → t.length < n →
        read_messages dec
            (encodeRecords rs ++ leBytes4 k.length ++ k ++ leBytes4 n ++ t)
          = (rs.map fun r => (r.1, r.2.2), some ReadErr.malformedMsg)) := by
  refine ⟨?_, ?_, ?_, ?_, ?_, ?_⟩
  · have h := read_messages_encodeRecords dec rs hwf []
    rw [List.append_nil] at h
    rw [h]
    simp [read_messages, read_messagesGo]
  · intro t ht
    rw [read_messages_encodeRecords dec rs hwf t]
    rw [read_messages_short dec t ht]
    simp
  · intro n t hn ht
    rw [List.append_assoc]
    rw [read_messages_encodeRecords dec rs hwf (leBytes4 n ++ t)]
    rw [read_messages_keyTrunc dec n t hn ht]
    simp
  · intro k t hk hu
    rw [List.append_assoc, List.append_assoc]
    rw [read_messages_encodeRecords dec rs hwf (leBytes4 k.length ++ (k ++ t))]
    rw [read_messages_badKey dec k t hk hu]
    simp
  · intro k t hk hu ht
    rw [List.append_assoc, List.append_assoc]
    rw [read_messages_encodeRecords dec rs hwf (leBytes4 k.length ++ (k ++ t))]
    rw [read_messages_lenTrunc dec k t hk hu ht]
    simp
  · intro k n t hk hu hn ht
    rw [List.append_assoc, List.append_assoc, List.append_assoc]
    rw [read_messages_encodeRecords dec rs hwf
      (leBytes4 k.length ++ (k ++ (leBytes4 n ++ t)))]
    rw [read_messages_msgTrunc dec k n t hk hu hn ht]
    simp

/-- Witness for `read_messages_truncation_behavior`: one well-formed record
followed by a valid one-byte key whose payload-length field is missing;
the loop ends cleanly. -/
theorem read_messages_truncation_behavior_witness :
    (∀ r ∈ [(([97] : List Nat), ([1] : List Nat), ())],
        r.1.length < 2 ^ 32 ∧ r.2.1.length < 2 ^ 32 ∧
          utf8Valid r.1 = true ∧
          (fun _ : List Nat => some ()) r.2.1 = some r.2.2) ∧
    read_messages (fun _ : List Nat => some ())
        (encodeRecords [([97], [1], ())] ++ leBytes4 1 ++ [98] ++ [])
      = ([([97], ())], none) :=
  ⟨by decide,
    (read_messages_truncation_behavior (fun _ : List Nat => some ())
        [([97], [1], ())] (by decide)).2.2.2.2.1 [98] []
      (by decide) (by decide) (by decide)⟩

/- ---------------------------------------------------------------------
   Claims C1, C2 (code bug): the partitioner hasher accumulates
   --------------------------------------------------------------------- -/

/-- C1: `process_file` creates one `FxHasher` OUTSIDE the record loop, so
the finished hash for record `i` depends on all earlier keys.  Two records
with identical key bytes "a" are assigned partitions 7 and 3 (with 8
partitions), so the partition is not a pure function `hash(k) mod N` of
the key bytes. -/
theorem partitioner_not_key_pure :
    partitions 8 [[97], [97]] = [7, 3] ∧ (7 : Nat) ≠ 3 := by
  constructor
  · decide
  · decide

/-- C2: as a consequence of the accumulating hasher, two records carrying
the same key "a" are delivered to DIFFERENT destination channels (record 0
to channel 7, record 1 to channel 3), so no single channel's consumer
observes both. -/
theorem same_key_different_channels :
    channelOf 8 [[97], [97]] 7 = [0] ∧ channelOf 8 [[97], [97]] 3 = [1] ∧
      (7 : Nat) ≠ 3 := by
  refine ⟨by decide, by decide, by decide⟩

/- ---------------------------------------------------------------------
   Claim C7 (corrected): broker payload prefix stripping
   --------------------------------------------------------------------- -/

/-- C7 counterexample: `decode_dynamic_message` strips the 5-byte prefix
only when `payload.len() > 5`.  A 5-byte payload whose byte 0 is zero is
NOT stripped (the claim says it decodes as the empty message after
stripping all 5 bytes). -/
theorem message_bytes_five_byte_not_stripped :
    message_bytes [0, 0, 0, 0, 1] = [0, 0, 0, 0, 1] ∧
      ([0, 0, 0, 0, 1] : List Nat) ≠ [] := by
  refine ⟨by decide, by decide⟩

/-- C7 (amended): the prefix is stripped exactly when the payload is
LONGER than 5 bytes and byte 0 is zero; payloads of at most 5 bytes, and
payloads whose byte 0 is nonzero, are passed to the decoder unchanged. -/
theorem message_bytes_strip_condition (payload : List Nat) :
    (6 ≤ payload.length → payload.headD 1 = 0 →
        message_bytes payload = payload.drop 5 ∧
          (message_bytes payload).length + 5 = payload.length) ∧
    (payload.headD 1 ≠ 0 → message_bytes payload = payload) ∧
    (payload.length ≤ 5 → message_bytes payload = payload) := by
  refine ⟨?_, ?_, ?_⟩
  · intro h1 h2
    have hc : 5 < payload.length ∧ payload.headD 1 = 0 := ⟨by omega, h2⟩
    constructor
    · simp only [message_bytes, if_pos hc]
    · simp only [message_bytes, if_pos hc, List.length_drop]
      omega
  · intro h2
    have hc : ¬(5 < payload.length ∧ payload.headD 1 = 0) := by
      intro hcon
      exact h2 hcon.2
    simp only [message_bytes, if_neg hc]
  · intro h1
    have hc : ¬(5 < payload.length ∧ payload.headD 1 = 0) := by
      intro hcon
      omega
    simp only [message_bytes, if_neg hc]

/-- Witness for `message_bytes_strip_condition` on a 7-byte zero-magic
payload. -/
theorem message_bytes_strip_condition_witness :
    (6 ≤ ([0, 9, 9, 9, 9, 41, 42] : List Nat).length ∧
        ([0, 9, 9, 9, 9, 41, 42] : List Nat).headD 1 = 0) ∧
      message_bytes [0, 9, 9, 9, 9, 41, 42] = [41, 42] :=
  ⟨⟨by decide, by decide⟩,
    (by
      have h := (message_bytes_strip_condition [0, 9, 9, 9, 9, 41, 42]).1
        (by decide) (by decide)
      exact h.1.trans (by decide))⟩

/- ---------------------------------------------------------------------
   Helper lemmas: database writer
   --------------------------------------------------------------------- -/

theorem mergeColumn_pg (ty : String) (cells : List ColumnData) (c : ColumnData)
    (h : mergeColumn ty cells = Except.ok c) : c.pg_type = pgOf ty := by
  unfold mergeColumn at h
  by_cases h1 : ty = "int" ∨ ty = "integer"
  · rw [if_pos h1] at h
    injection h with h2
    subst h2
    simp [ColumnData.pg_type, pgOf, if_pos h1]
  rw [if_neg h1] at h
  by_cases h2 : ty = "text" ∨ ty = "varchar" ∨ ty = "string"
  · rw [if_pos h2] at h
    injection h with h3
    subst h3
    simp only [ColumnData.pg_type, pgOf, if_neg h1, if_pos h2]
  rw [if_neg h2] at h
  by_cases h3 : ty = "bool"
  · rw [if_pos h3] at h
    injection h with h4
    subst h4
    simp only [ColumnData.pg_type, pgOf, if_neg h1, if_neg h2, if_pos h3]
  rw [if_neg h3] at h
  by_cases h4 : ty = "float" ∨ ty = "float8" ∨ ty = "double"
  · rw [if_pos h4] at h
    injection h with h5
    subst h5
    simp only [ColumnData.pg_type, pgOf, if_neg h1, if_neg h2, if_neg h3]
  · rw [if_neg h4] at h
    exact absurd h (by simp)

theorem collectColumns_pg (rows : List (List (String × JValue))) :
    ∀ (cols : List ColumnSpec) (cds : List ColumnData),
      collectColumns rows cols = Except.ok cds →
      cds.map ColumnData.pg_type = cols.map fun c => pgOf c.type := by
  intro cols
  induction cols with
  | nil =>
    intro cds h
    simp only [collectColumns] at h
    injection h with h2
    subst h2
    rfl
  | cons col rest ih =>
    intro cds h
    simp only [collectColumns] at h
    cases hcc : collectColumn col rows with
    | error e => rw [hcc] at h; simp at h
    | ok cells =>
      rw [hcc] at h
      simp only at h
      cases hm : mergeColumn col.type cells with
      | error e => rw [hm] at h; simp at h
      | ok merged =>
        rw [hm] at h
        simp only at h
        cases hrest : collectColumns rows rest with
        | error e => rw [hrest] at h; simp at h
        | ok others =>
          rw [hrest] at h
          simp only at h
          injection h with h2
          subst h2
          simp only [List.map_cons]
          rw [mergeColumn_pg col.type cells merged hm, ih others hrest]

/-- Exhaustive shape analysis of one `insert_data` call: either it returns
before any database interaction (errors and the empty-rows/columns early
returns), or it hits the cache (connect + execute only), or it misses
(connect + prepare + execute, key appended to the cache). -/
theorem insert_data_cases (cache : List CacheKey) (r : TransformResult) :
    ((insert_data cache r).cache = cache ∧ (insert_data cache r).effects = []) ∨
    ((∃ n, (insert_data cache r).outcome = InsertOutcome.ok n) ∧
      (insert_data cache r).effects = [DbEffect.connect, DbEffect.execute] ∧
      (insert_data cache r).cache = cache) ∨
    (∃ (ti : TableInfo) (rows : List (List (String × JValue)))
        (cds : List ColumnData),
      r.table_info = some ti ∧ r.data = some rows ∧
      collectColumns rows ti.columns = Except.ok cds ∧
      (∃ n, (insert_data cache r).outcome = InsertOutcome.ok n) ∧
      (ti.schema, ti.name, columnNames ti.columns, unnestArgs cds) ∉ cache ∧
      (insert_data cache r).effects =
        [DbEffect.connect,
          DbEffect.prepare
            (ti.schema, ti.name, columnNames ti.columns, unnestArgs cds),
          DbEffect.execute] ∧
      (insert_data cache r).cache =
        cache ++ [(ti.schema, ti.name, columnNames ti.columns, unnestArgs cds)]) := by
  by_cases hs : r.success = false
  · left; simp [insert_data, hs]
  cases hti : r.table_info with
  | none => left; simp [insert_data, hs, hti]
  | some ti =>
    cases hdd : r.data with
    | none => left; simp [insert_data, hs, hti, hdd]
    | some rows =>
      by_cases hre : rows.isEmpty = true
      · left; simp [insert_data, hs, hti, hdd, hre]
      by_cases hce : ti.columns.isEmpty = true
      · left; simp [insert_data, hs, hti, hdd, hre, hce]
      cases hcc : collectColumns rows ti.columns with
      | error e => left; simp [insert_data, hs, hti, hdd, hre, hce, hcc]
      | ok cds =>
        by_cases hct :
            (ti.schema, ti.name, columnNames ti.columns, unnestArgs cds) ∈ cache
        · right; left
          refine ⟨⟨rows.length, ?_⟩, ?_, ?_⟩ <;>
            simp [insert_data, hs, hti, hdd, hre, hce, hcc, hct]
        · right; right
          refine ⟨ti, rows, cds, rfl, rfl, hcc, ⟨rows.length, ?_⟩, hct, ?_, ?_⟩ <;>
            simp [insert_data, hs, hti, hdd, hre, hce, hcc, hct]

theorem prepCount_append (a b : List DbEffect) (k : CacheKey) :
    prepCount (a ++ b) k = prepCount a k + prepCount b k := by
  simp [prepCount, List.filter_append]

theorem insert_data_prepCount (cache : List CacheKey) (r : TransformResult)
    (k : CacheKey) :
    prepCount (insert_data cache r).effects k ≤ 1 ∧
    (k ∈ cache → prepCount (insert_data cache r).effects k = 0) ∧
    (k ∈ cache → k ∈ (insert_data cache r).cache) ∧
    (1 ≤ prepCount (insert_data cache r).effects k →
        k ∈ (insert_data cache r).cache) := by
  rcases insert_data_cases cache r with ⟨hc, he⟩ | ⟨_, he, hc⟩ |
    ⟨ti, rows, cds, _, _, _, _, hct, he, hc⟩
  · rw [he, hc]
    exact ⟨by simp [prepCount], fun _ => by simp [prepCount], fun h => h,
      by simp [prepCount]⟩
  · rw [he, hc]
    refine ⟨?_, fun _ => ?_, fun h => h, ?_⟩ <;> simp [prepCount]
  · rw [he, hc]
    by_cases hk : k = (ti.schema, ti.name, columnNames ti.columns, unnestArgs cds)
    · subst hk
      refine ⟨?_, fun hmem => absurd hmem hct, fun hmem => absurd hmem hct, ?_⟩
      · simp [prepCount]
      · intro _
        simp
    · have hz : prepCount
          [DbEffect.connect,
            DbEffect.prepare
              (ti.schema, ti.name, columnNames ti.columns, unnestArgs cds),
            DbEffect.execute] k = 0 := by
        simp [prepCount]
        exact fun hcon => hk hcon.symm
      rw [hz]
      exact ⟨by omega, fun _ => rfl, fun hmem => List.mem_append_left _ hmem,
        by omega⟩

theorem insertSeq_prepCount_of_mem (k : CacheKey) :
    ∀ (rs : List TransformResult) (cache : List CacheKey), k ∈ cache →
      prepCount (insertSeq cache rs).2 k = 0 := by
  intro rs
  induction rs with
  | nil => intro cache _; simp [insertSeq, prepCount]
  | cons r rs ih =>
    intro cache hmem
    simp only [insertSeq]
    rw [prepCount_append]
    have h1 := insert_data_prepCount cache r k
    rw [h1.2.1 hmem, ih _ (h1.2.2.1 hmem)]

theorem insertSeq_prepCount_le_one (k : CacheKey) :
    ∀ (rs : List TransformResult) (cache : List CacheKey),
      prepCount (insertSeq cache rs).2 k ≤ 1 := by
  intro rs
  induction rs with
  | nil => intro cache; simp [insertSeq, prepCount]
  | cons r rs ih =>
    intro cache
    simp only [insertSeq]
    rw [prepCount_append]
    have h1 := insert_data_prepCount cache r k
    by_cases hz : prepCount (insert_data cache r).effects k = 0
    · rw [hz]
      simpa using ih (insert_data cache r).cache
    · have hone : 1 ≤ prepCount (insert_data cache r).effects k := by omega
      have hmem := h1.2.2.2 hone
      rw [insertSeq_prepCount_of_mem k rs _ hmem]
      omega

theorem insert_data_prepare_key (cache : List CacheKey) (r : TransformResult)
    (ti : TableInfo) (k : CacheKey) (hti : r.table_info = some ti)
    (hp : DbEffect.prepare k ∈ (insert_data cache r).effects) :
    k = (ti.schema, ti.name, columnNames ti.columns,
          unnestArgsOf (ti.columns.map fun c => pgOf c.type)) := by
  rcases insert_data_cases cache r with ⟨_, he⟩ | ⟨_, he, _⟩ |
    ⟨ti2, rows, cds, hti2, _, hcc, _, _, he, _⟩
  · rw [he] at hp
    simp at hp
  · rw [he] at hp
    simp at hp
  · rw [he] at hp
    simp at hp
    have hteq : ti2 = ti := by
      rw [hti2] at hti
      injection hti
    subst hteq
    rw [hp]
    simp only [unnestArgs]
    rw [collectColumns_pg rows ti2.columns cds hcc]

/- ---------------------------------------------------------------------
   Claim C8 (confirmed): one prepare per distinct cache key
   --------------------------------------------------------------------- -/

/-- C8: over any sequence of `insert_data` calls in one process, a
statement is prepared at most once per distinct cache key (never again
once the key is cached), and the cache key of a call that prepares depends
only on the TransformResult's `(schema, name, columns)` — so two results
with identical table_info lead to the same key, the second reusing the
cached statement. -/
theorem insert_data_prepare_once :
    (∀ (cache : List CacheKey) (rs : List TransformResult) (k : CacheKey),
        k ∈ cache → prepCount (insertSeq cache rs).2 k = 0) ∧
    (∀ (cache : List CacheKey) (rs : List TransformResult) (k : CacheKey),
        prepCount (insertSeq cache rs).2 k ≤ 1) ∧
    (∀ (cache1 cache2 : List CacheKey) (r1 r2 : TransformResult)
        (ti : TableInfo) (k1 k2 : CacheKey),
        r1.table_info = some ti → r2.table_info = some ti →
        DbEffect.prepare k1 ∈ (insert_data cache1 r1).effects →
        DbEffect.prepare k2 ∈ (insert_data cache2 r2).effects →
        k1 = k2) := by
  refine ⟨?_, ?_, ?_⟩
  · intro cache rs k hmem
    exact insertSeq_prepCount_of_mem k rs cache hmem
  · intro cache rs k
    exact insertSeq_prepCount_le_one k rs cache
  · intro cache1 cache2 r1 r2 ti k1 k2 h1 h2 hp1 hp2
    rw [insert_data_prepare_key cache1 r1 ti k1 h1 hp1,
      insert_data_prepare_key cache2 r2 ti k2 h2 hp2]

/-- Witness for `insert_data_prepare_once`: a key already in the cache is
never prepared again, and a run of two identical inserts prepares at most
once. -/
theorem insert_data_prepare_once_witness :
    (("public", "t", "a", "$1::int[]") ∈
        ([("public", "t", "a", "$1::int[]")] : List CacheKey)) ∧
    prepCount
        (insertSeq [("public", "t", "a", "$1::int[]")]
          [⟨true, some ⟨"public", "t", [⟨"a", "int"⟩]⟩,
            some [[("a", JValue.num (JNum.posInt 1))]], none⟩]).2
        ("public", "t", "a", "$1::int[]") = 0 :=
  ⟨by decide,
    insert_data_prepare_once.1 [("public", "t", "a", "$1::int[]")]
      [⟨true, some ⟨"public", "t", [⟨"a", "int"⟩]⟩,
        some [[("a", JValue.num (JNum.posInt 1))]], none⟩]
      ("public", "t", "a", "$1::int[]") (by decide)⟩

/- ---------------------------------------------------------------------
   Claim C9 (confirmed): int columns wrap i64 values to 32 bits
   --------------------------------------------------------------------- -/

theorem jnumOfInt_is_i64 (n : Int) (h1 : -(2 ^ 63) ≤ n) (h2 : n < 2 ^ 63) :
    (jnumOfInt n).is_i64 = true := by
  unfold jnumOfInt
  by_cases h : 0 ≤ n
  · rw [if_pos h]
    simp only [JNum.is_i64, decide_eq_true_eq]
    omega
  · rw [if_neg h]
    rfl

theorem jnumOfInt_as_i64 (n : Int) : (jnumOfInt n).as_i64 = n := by
  unfold jnumOfInt
  by_cases h : 0 ≤ n
  · rw [if_pos h]
    simp only [JNum.as_i64]
    omega
  · rw [if_neg h]
    rfl

/-- C9: for a column declared `int` or `integer`, every i64-representable
integer value is accepted and stored as its value truncated to 32 bits
(two's-complement wrap, congruent mod 2^32 and in i32 range) — no range
error for values outside i32 — while floats, u64 values above i64::MAX
and non-numbers are rejected as type mismatches. -/
theorem insert_data_int_column_wraps (ty : String)
    (hty : ty = "int" ∨ ty = "integer") :
    (∀ n : Int, -(2 ^ 63) ≤ n → n < 2 ^ 63 →
        coerceCell ty (JValue.num (jnumOfInt n))
            = some (ColumnData.int [asI32 n]) ∧
          -(2 ^ 31) ≤ asI32 n ∧ asI32 n < 2 ^ 31 ∧
          asI32 n % 2 ^ 32 = n % 2 ^ 32) ∧
    (∀ s : String, coerceCell ty (JValue.num (JNum.float s)) = none) ∧
    (∀ m : Nat, 2 ^ 63 ≤ m → coerceCell ty (JValue.num (JNum.posInt m)) = none) ∧
    (∀ s : String, coerceCell ty (JValue.str s) = none) ∧
    (∀ b : Bool, coerceCell ty (JValue.bool b) = none) ∧
    coerceCell ty JValue.null = none := by
  have hs1 : ¬(ty = "string" ∨ ty = "text" ∨ ty = "varchar") := by
    rcases hty with h | h <;> subst h <;> decide
  have hf1 : ¬(ty = "float" ∨ ty = "float8" ∨ ty = "double") := by
    rcases hty with h | h <;> subst h <;> decide
  have hb1 : ¬(ty = "bool") := by
    rcases hty with h | h <;> subst h <;> decide
  refine ⟨?_, ?_, ?_, ?_, ?_, ?_⟩
  · intro n h1 h2
    refine ⟨?_, ?_, ?_, ?_⟩
    · simp only [coerceCell]
      rw [if_pos ⟨hty, jnumOfInt_is_i64 n h1 h2⟩, jnumOfInt_as_i64]
    · simp only [asI32]; omega
    · simp only [asI32]; omega
    · simp only [asI32]; omega
  · intro s
    simp only [coerceCell]
    rw [if_neg (by intro hcon; exact absurd hcon.2 (by simp [JNum.is_i64]))]
    rw [if_neg hs1]
    rw [if_neg (by intro hcon; exact hf1 hcon.1)]
  · intro m hm
    simp only [coerceCell]
    rw [if_neg ?_]
    rw [if_neg hs1]
    rw [if_neg (by intro hcon; exact hf1 hcon.1)]
    intro hcon
    have h2 := hcon.2
    simp only [JNum.is_i64, decide_eq_true_eq] at h2
    omega
  · intro s
    simp only [coerceCell]
    rw [if_neg hs1]
  · intro b
    simp only [coerceCell]
    rw [if_neg hb1]
  · rfl

/-- Witness for `insert_data_int_column_wraps`: the value 2^31 (outside the
signed 32-bit range) is accepted and wraps to -(2^31). -/
theorem insert_data_int_column_wraps_witness :
    ("int" = "int" ∨ "int" = "integer") ∧
      (-(2 ^ 63) ≤ (2 ^ 31 : Int) ∧ (2 ^ 31 : Int) < 2 ^ 63) ∧
      coerceCell "int" (JValue.num (jnumOfInt (2 ^ 31)))
          = some (ColumnData.int [asI32 (2 ^ 31)]) ∧
      asI32 (2 ^ 31) = -(2 ^ 31) :=
  ⟨Or.inl rfl, ⟨by decide, by decide⟩,
    ((insert_data_int_column_wraps "int" (Or.inl rfl)).1 (2 ^ 31)
      (by decide) (by decide)).1,
    by decide⟩

/- ---------------------------------------------------------------------
   Claim C10 (confirmed): validation failures touch no database state
   --------------------------------------------------------------------- -/

/-- C10: whenever `insert_data` fails — upstream failure, missing
table_info or data, missing column, type mismatch (or the unreachable
unsupported-merge) — no connection is acquired, nothing is prepared or
executed, and the statement cache is unchanged. -/
theorem insert_data_error_no_db_effects (cache : List CacheKey)
    (r : TransformResult) (e : InsertErr)
    (h : (insert_data cache r).outcome = InsertOutcome.err e) :
    (insert_data cache r).cache = cache ∧
      (insert_data cache r).effects = [] ∧
      DbEffect.connect ∉ (insert_data cache r).effects ∧
      (∀ k : CacheKey, DbEffect.prepare k ∉ (insert_data cache r).effects) ∧
      DbEffect.execute ∉ (insert_data cache r).effects := by
  rcases insert_data_cases cache r with ⟨hc, he⟩ | ⟨⟨n, ho⟩, _, _⟩ |
    ⟨_, _, _, _, _, _, ⟨n, ho⟩, _, _, _⟩
  · rw [hc, he]
    refine ⟨rfl, rfl, by simp, fun k => by simp, by simp⟩
  · rw [ho] at h
    simp at h
  · rw [ho] at h
    simp at h

/-- Witness for `insert_data_error_no_db_effects`: an upstream failure
leaves the cache and the effect trace empty. -/
theorem insert_data_error_no_db_effects_witness :
    (insert_data [] ⟨false, none, none, some "boom"⟩).outcome
        = InsertOutcome.err (InsertErr.upstreamFailure (some "boom")) ∧
      (insert_data [] ⟨false, none, none, some "boom"⟩).cache = [] ∧
      (insert_data [] ⟨false, none, none, some "boom"⟩).effects = [] :=
  ⟨by rfl,
    (insert_data_error_no_db_effects [] ⟨false, none, none, some "boom"⟩
      (InsertErr.upstreamFailure (some "boom")) (by rfl)).1,
    ((insert_data_error_no_db_effects [] ⟨false, none, none, some "boom"⟩
      (InsertErr.upstreamFailure (some "boom")) (by rfl)).2).1⟩
